import Mathlib

/-!
Verification of the tree-to-excel core (src/main.rs): the tree-output line
parser (`TreeParser::parse`, `parse_line`, `remove_ansi_codes`, `is_file`)
and the per-column cell-merging algorithm (`merge_level_column`).

Text is modelled as `List Char` (Rust iterates `chars()` explicitly in
`parse_line` and `remove_ansi_codes`; the byte-level operations it uses
elsewhere — `trim`, `starts_with('.')`, `contains("directories")`,
`rfind('.')` compared against `len()` — are equivalent to their
character-level counterparts on valid UTF-8, as all searched patterns are
ASCII).  The input of `parse` is modelled as the list of its lines.
-/

/-- Unicode `White_Space` predicate, as used by Rust `char::is_whitespace`
(and hence by `str::trim` and the indentation matching in `parse_line`). -/
def rustWhite (c : Char) : Bool :=
  decide ((9 ≤ c.toNat ∧ c.toNat ≤ 13) ∨ c.toNat = 32 ∨ c.toNat = 133 ∨
    c.toNat = 160 ∨ c.toNat = 5760 ∨ (8192 ≤ c.toNat ∧ c.toNat ≤ 8202) ∨
    c.toNat = 8232 ∨ c.toNat = 8233 ∨ c.toNat = 8239 ∨ c.toNat = 8287 ∨
    c.toNat = 12288)

/-- Rust `str::trim`: drop Unicode whitespace from both ends. -/
def trimChars (l : List Char) : List Char :=
  ((l.dropWhile rustWhite).reverse.dropWhile rustWhite).reverse

/-- The ASCII escape character `\x1b` that introduces ANSI sequences. -/
def escChar : Char := Char.ofNat 27

/-- Cursor state of the `remove_ansi_codes` loop: copying normally, just
consumed an escape character (about to peek for `[`), or inside a
bracket-introduced sequence being skipped. -/
inductive AnsiMode
  | normal
  | seenEsc
  | skipping
deriving DecidableEq

/-- `TreeParser::remove_ansi_codes`, written as a character-at-a-time state
machine equivalent to the source loop: copy characters through, except that
an escape character followed by `[` swallows everything up to and including
the first ASCII-alphabetic terminator or `~`, and a bare escape character
(not followed by `[`) is dropped with the next character processed
normally. -/
def removeAnsiGo : AnsiMode → List Char → List Char
  | _, [] => []
  | .normal, c :: rest =>
    if c = escChar then removeAnsiGo .seenEsc rest
    else c :: removeAnsiGo .normal rest
  | .seenEsc, c :: rest =>
    if c = '[' then removeAnsiGo .skipping rest
    else if c = escChar then removeAnsiGo .seenEsc rest
    else c :: removeAnsiGo .normal rest
  | .skipping, c :: rest =>
    if c.isAlpha || c = '~' then removeAnsiGo .normal rest
    else removeAnsiGo .skipping rest

/-- `TreeParser::remove_ansi_codes` on a whole character list. -/
def remove_ansi_codes (l : List Char) : List Char :=
  removeAnsiGo .normal l

theorem escChar_not_mem_removeAnsiGo (l : List Char) :
    ∀ m, escChar ∉ removeAnsiGo m l := by
  induction l with
  | nil => intro m; cases m <;> simp [removeAnsiGo]
  | cons c rest ih =>
    intro m
    cases m with
    | normal =>
      simp only [removeAnsiGo]
      split
      · exact ih _
      · intro hmem
        rcases List.mem_cons.mp hmem with h1 | h2
        · rename_i hc; exact hc h1.symm
        · exact ih _ h2
    | seenEsc =>
      simp only [removeAnsiGo]
      split
      · exact ih _
      · split
        · exact ih _
        · intro hmem
          rcases List.mem_cons.mp hmem with h1 | h2
          · rename_i _ hc; exact hc h1.symm
          · exact ih _ h2
    | skipping =>
      simp only [removeAnsiGo]
      split
      · exact ih _
      · exact ih _

theorem escChar_not_mem_remove_ansi (l : List Char) :
    escChar ∉ remove_ansi_codes l :=
  escChar_not_mem_removeAnsiGo l .normal

theorem remove_ansi_of_not_mem (l : List Char) (h : escChar ∉ l) :
    remove_ansi_codes l = l := by
  induction l with
  | nil => rfl
  | cons c rest ih =>
    have hc : ¬ c = escChar := fun hc => h (hc ▸ List.mem_cons_self c _)
    simp only [remove_ansi_codes, removeAnsiGo, if_neg hc]
    have := ih (fun hm => h (List.mem_cons_of_mem c hm))
    simp only [remove_ansi_codes] at this
    rw [this]

/-- C8: Stripping ANSI escape sequences is idempotent: for every string s,
applying the ANSI-removal function to its own output yields the same output
(the stripped text contains no escape marker, so a second pass is a no-op). -/
theorem remove_ansi_codes_idempotent (l : List Char) :
    remove_ansi_codes (remove_ansi_codes l) = remove_ansi_codes l :=
  remove_ansi_of_not_mem _ (escChar_not_mem_remove_ansi l)

/-- One step of the indentation loop of `parse_line`: from the remaining
characters, consume one complete 4-character indentation unit — either a
vertical continuation bar followed by three whitespace characters, or four
plain spaces — returning the count of consumed units and the remainder.
The loop guard `pos + 3 < chars.len()` requires four characters available. -/
def countIndent : List Char → Nat × List Char
  | c0 :: c1 :: c2 :: c3 :: rest =>
    if c0 = '│' ∧ rustWhite c1 ∧ rustWhite c2 ∧ rustWhite c3 then
      let p := countIndent rest
      (p.1 + 1, p.2)
    else if c0 = ' ' ∧ c1 = ' ' ∧ c2 = ' ' ∧ c3 = ' ' then
      let p := countIndent rest
      (p.1 + 1, p.2)
    else (0, c0 :: c1 :: c2 :: c3 :: rest)
  | l => (0, l)

/-- After the connector glyph and its two dashes, `parse_line` skips one
optional plain space, requires a non-empty remainder, and takes the trimmed
remainder as the entry name (empty after trimming means no entry). -/
def finishName (level : Nat) (rest : List Char) : Option (Nat × List Char) :=
  let rest2 := match rest with
    | ' ' :: t => t
    | t => t
  if rest2 = [] then none
  else
    let name := trimChars rest2
    if name = [] then none else some (level + 1, name)

/-- `TreeParser::parse_line`: skip root-marker lines, strip ANSI sequences,
count 4-character indentation units, require a `├──`/`└──` connector, and
return (indentation units + 1, trimmed remainder) when a name remains. -/
def parse_line (line : List Char) : Option (Nat × List Char) :=
  let trimmed := trimChars line
  if trimmed = ['.'] ∨
      (trimmed.getLast? = some '/' ∧
        ¬ trimmed.contains '├' ∧ ¬ trimmed.contains '└') then none
  else
    let clean := remove_ansi_codes line
    let p := countIndent clean
    match p.2 with
    | '├' :: '─' :: '─' :: rest2 => finishName p.1 rest2
    | '└' :: '─' :: '─' :: rest2 => finishName p.1 rest2
    | _ => none

/-- Does `pat` occur at the head of `l`? (Rust `str::starts_with` on an
ASCII pattern, character-level.) -/
def startsWithList : List Char → List Char → Bool
  | [], _ => true
  | _ :: _, [] => false
  | p :: ps, c :: cs => p == c && startsWithList ps cs

/-- Does `pat` occur as a contiguous substring of `l`? (Rust
`str::contains` on an ASCII pattern, character-level.) -/
def containsSub (pat l : List Char) : Bool :=
  match l with
  | [] => startsWithList pat []
  | _ :: cs => startsWithList pat l || containsSub pat cs

/-- Character position of the last `.` in a name. Rust `str::rfind('.')`
returns a byte offset, but the two tests `is_file` applies to it —
`dot_pos > 0` (the dot is not the first character) and
`dot_pos < name.len() - 1` (bytes, hence characters, follow the one-byte
dot) — hold at byte granularity iff they hold at character granularity. -/
def lastDotPos (name : List Char) : Option Nat :=
  (name.reverse.findIdx? (· = '.')).map (fun k => name.length - 1 - k)

/-- The fixed allow-list of well-known extensionless file names matched by
the final `matches!` of `TreeParser::is_file`. -/
def wellKnownFile (name : List Char) : Bool :=
  name == "Cargo.lock".toList || name == "Dockerfile".toList ||
  name == "Makefile".toList || name == "LICENSE".toList ||
  name == "README".toList || name == "CHANGELOG".toList

/-- `TreeParser::is_file`: a name containing a `.` and not starting with
one is a file iff its last `.` sits strictly inside the name; all other
names are files iff they are on the well-known allow-list. -/
def is_file (name : List Char) : Bool :=
  if name.contains '.' && !(startsWithList ['.'] name) then
    match lastDotPos name with
    | some dotPos => decide (dotPos > 0) && decide (dotPos < name.length - 1)
    | none => wellKnownFile name
  else wellKnownFile name

/-- One parsed entry (`TreeItem` in the source). -/
structure TreeItem where
  name : List Char
  level : Nat
  isFile : Bool
  full_path : List Char
deriving DecidableEq, Repr

/-- The mutable state threaded through `TreeParser::parse`'s line loop. -/
structure PState where
  items : List TreeItem
  path_stack : List (List Char)
  stats_line : Option (List Char)
  hidden_levels : List Nat
deriving DecidableEq, Repr

/-- Is this line the statistics line? (`line.contains("directories") &&
line.contains("files")`). -/
def isStatsLine (line : List Char) : Bool :=
  containsSub "directories".toList line && containsSub "files".toList line

/-- `path_stack.join("/")`. -/
def joinSlash (stack : List (List Char)) : List Char :=
  (stack.intersperse ['/']).flatten

/-- The body of `TreeParser::parse`'s `for line in lines` loop: skip blank
lines, capture statistics lines, drop lines `parse_line` rejects, filter
hidden entries (recording their level so descendants are filtered too), and
otherwise rebuild the path from the truncated stack and append the item. -/
def parseStep (include_hidden : Bool) (s : PState) (line : List Char) : PState :=
  if trimChars line = [] then s
  else if isStatsLine line then { s with stats_line := some (trimChars line) }
  else
    match parse_line line with
    | none => s
    | some (level, name) =>
      let hl := s.hidden_levels.filter (fun h => decide (h < level))
      let startsDot := startsWithList ['.'] name
      if !include_hidden && (startsDot || !hl.isEmpty) then
        if startsDot then { s with hidden_levels := hl ++ [level] }
        else { s with hidden_levels := hl }
      else
        let stack := s.path_stack.take (level - 1)
        let full_path :=
          if stack.isEmpty then name else joinSlash stack ++ '/' :: name
        { items := s.items ++ [⟨name, level, is_file name, full_path⟩],
          path_stack := stack ++ [name],
          stats_line := s.stats_line,
          hidden_levels := hl }

/-- The state `TreeParser::parse` reaches after its line loop, starting
from empty stacks. -/
def parseState (lines : List (List Char)) (include_hidden : Bool) : PState :=
  lines.foldl (parseStep include_hidden) ⟨[], [], none, []⟩

/-- The `"📊 统计: "` marker prefixed to the synthetic summary item. -/
def statMark : List Char := "📊 统计: ".toList

/-- `format!("{} directories, {} files", dir_count, file_count)`. -/
def fmtStats (dirCount fileCount : Nat) : List Char :=
  (Nat.repr dirCount).toList ++ " directories, ".toList ++
    (Nat.repr fileCount).toList ++ " files".toList

/-- The synthetic summary `TreeItem` appended by `parse` (level 0,
directory-classified, name and path both the marked phrase). -/
def mkSummary (txt : List Char) : TreeItem :=
  ⟨statMark ++ txt, 0, false, statMark ++ txt⟩

/-- The item list `TreeParser::parse` returns: the accepted items followed
by one summary item whose phrase is the captured statistics line when
hidden entries are included and one was captured, and the recomputed
`"{dirs} directories, {files} files"` otherwise. -/
def parseItems (lines : List (List Char)) (include_hidden : Bool) : List TreeItem :=
  let s := parseState lines include_hidden
  let fileCount := s.items.countP (fun it => it.isFile)
  let dirCount := s.items.countP (fun it => !it.isFile)
  let txt :=
    if include_hidden then s.stats_line.getD (fmtStats dirCount fileCount)
    else fmtStats dirCount fileCount
  s.items ++ [mkSummary txt]

/-- `TreeParser::parse` itself: a `Result` whose only exit is `Ok`. -/
def parse (lines : List (List Char)) (include_hidden : Bool) :
    Except String (List TreeItem) :=
  .ok (parseItems lines include_hidden)

/-- One merge instruction issued by `merge_level_column` for its column:
worksheet rows `firstRow..lastRow` (inclusive, already offset by the
caller's `start_row`) collapse into one cell holding `value`. -/
structure MergeRun where
  firstRow : Nat
  lastRow : Nat
  value : List Char
deriving DecidableEq, Repr

/-- `rows[r].levels[c]`: the grid value of data row `r` at depth column
`c`. Rows are modelled by their `levels` arrays; out-of-range defaults to
the empty value (the source never indexes out of range: its loops are
bounded by `rows.len()` and every `levels` has `max_level` entries). -/
def rowVal (rows : List (List (List Char))) (r c : Nat) : List Char :=
  (rows.getD r []).getD c []

/-- The inner `for prev_level in 0..level_idx` check of
`merge_level_column`: rows `i` and `j` agree on every column shallower than
`col` (same parent chain). -/
def sameParent (rows : List (List (List Char))) (i j col : Nat) : Bool :=
  (List.range col).all (fun c => rowVal rows i c == rowVal rows j c)

/-- The inner `while j < rows.len()` loop of `merge_level_column`: extend
`j` forward while row `j` keeps the value of row `i` at this column and
agrees with row `i` on all shallower columns. The fuel argument only bounds
the iteration count; `rows.length` fuel is always enough since `j` grows
by one per step and the loop stops at `rows.length`. -/
def extendRun (rows : List (List (List Char))) (col i : Nat) :
    Nat → Nat → Nat
  | 0, j => j
  | fuel + 1, j =>
    if j < rows.length ∧
        rowVal rows j col = rowVal rows i col ∧
        sameParent rows i j col then
      extendRun rows col i fuel (j + 1)
    else j

/-- The outer `while i < rows.len()` loop of `merge_level_column`: skip
rows with an empty value at this column, find the maximal run starting at
`i`, emit a merge instruction when the run spans more than one row, and
resume the scan at the end of the run. -/
def mergeAux (rows : List (List (List Char))) (col start : Nat) :
    Nat → Nat → List MergeRun
  | 0, _ => []
  | fuel + 1, i =>
    if i < rows.length then
      if rowVal rows i col = [] then mergeAux rows col start fuel (i + 1)
      else
        let j := extendRun rows col i rows.length (i + 1)
        let rest := mergeAux rows col start fuel j
        if i + 1 < j then
          ⟨start + i, start + j - 1, rowVal rows i col⟩ :: rest
        else rest
    else []

/-- `ExcelGenerator::merge_level_column`: all merge ranges emitted for
column `col` of the given grid rows, written at worksheet offset
`start_row`. -/
def merge_level_column (rows : List (List (List Char))) (col start : Nat) :
    List MergeRun :=
  mergeAux rows col start rows.length 0

theorem extendRun_ge (rows : List (List (List Char))) (col i : Nat) :
    ∀ fuel j, j ≤ extendRun rows col i fuel j := by
  intro fuel
  induction fuel with
  | zero => intro j; exact Nat.le_refl _
  | succ fuel ih =>
    intro j
    simp only [extendRun]
    split
    · exact Nat.le_trans (Nat.le_succ j) (ih (j + 1))
    · exact Nat.le_refl _

theorem extendRun_inv (rows : List (List (List Char))) (col i : Nat) :
    ∀ fuel j0 r, j0 ≤ r → r < extendRun rows col i fuel j0 →
      rowVal rows r col = rowVal rows i col ∧
      ∀ c, c < col → rowVal rows r c = rowVal rows i c := by
  intro fuel
  induction fuel with
  | zero =>
    intro j0 r hle hlt
    simp only [extendRun] at hlt
    omega
  | succ fuel ih =>
    intro j0 r hle hlt
    simp only [extendRun] at hlt
    split at hlt
    · rename_i hcond
      rcases Nat.eq_or_lt_of_le hle with heq | hlt2
      · subst heq
        refine ⟨hcond.2.1, fun c hc => ?_⟩
        have := hcond.2.2
        simp only [sameParent, List.all_eq_true] at this
        have h2 := this c (List.mem_range.mpr hc)
        exact (beq_iff_eq.mp h2).symm
      · exact ih (j0 + 1) r hlt2 hlt
    · omega

theorem mergeAux_mem (rows : List (List (List Char))) (col start : Nat) :
    ∀ fuel i run, run ∈ mergeAux rows col start fuel i →
      ∃ i0 j, i ≤ i0 ∧ i0 + 1 < j ∧
        run.firstRow = start + i0 ∧ run.lastRow = start + j - 1 ∧
        run.value = rowVal rows i0 col ∧ rowVal rows i0 col ≠ [] ∧
        j = extendRun rows col i0 rows.length (i0 + 1) := by
  intro fuel
  induction fuel with
  | zero => intro i run h; simp [mergeAux] at h
  | succ fuel ih =>
    intro i run h
    simp only [mergeAux] at h
    split at h
    · split at h
      · obtain ⟨i0, j, h1, hrest⟩ := ih (i + 1) run h
        exact ⟨i0, j, by omega, hrest⟩
      · split at h
        · rcases List.mem_cons.mp h with heq | hmem
          · subst heq
            refine ⟨i, extendRun rows col i rows.length (i + 1),
              Nat.le_refl _, by assumption, rfl, rfl, rfl, by assumption, rfl⟩
          · obtain ⟨i0, j, h1, hrest⟩ := ih _ run hmem
            have hge := extendRun_ge rows col i rows.length (i + 1)
            exact ⟨i0, j, by omega, hrest⟩
        · obtain ⟨i0, j, h1, hrest⟩ := ih _ run h
          have hge := extendRun_ge rows col i rows.length (i + 1)
          exact ⟨i0, j, by omega, hrest⟩
    · simp at h

/-- C1: For every ordered GridRow sequence and every depth column, every
merge range emitted by the range merger covers only rows whose values in
every shallower column (0..column) exactly equal the values of the run's
first row; in particular, two sibling directories each containing a child
with the same name at the same depth never share one merged range. -/
theorem merge_level_column_parent_scoped (rows : List (List (List Char)))
    (col start : Nat) (run : MergeRun)
    (hmem : run ∈ merge_level_column rows col start) :
    ∀ r, run.firstRow ≤ r → r ≤ run.lastRow → ∀ c, c < col →
      rowVal rows (r - start) c = rowVal rows (run.firstRow - start) c := by
  obtain ⟨i0, j, hi, hij, hfirst, hlast, hval, hne, hj⟩ :=
    mergeAux_mem rows col start rows.length 0 run hmem
  intro r hr1 hr2 c hc
  have hfs : run.firstRow - start = i0 := by omega
  rw [hfs]
  have hr0 : i0 ≤ r - start := by omega
  rcases Nat.eq_or_lt_of_le hr0 with heq | hlt
  · rw [← heq]
  · have hrj : r - start < extendRun rows col i0 rows.length (i0 + 1) := by
      rw [← hj]; omega
    exact (extendRun_inv rows col i0 rows.length (i0 + 1) (r - start)
      (by omega) hrj).2 c hc

/-- Witness for C1 on the spec's sibling scenario: directories `a` and `b`
each contain a child `x`; at column 1 the emitted range covers only the two
rows under `a`, whose column-0 values agree with the run's first row. -/
theorem merge_level_column_parent_scoped_witness :
    (⟨0, 1, "x".toList⟩ : MergeRun) ∈
      merge_level_column [["a".toList, "x".toList], ["a".toList, "x".toList],
        ["b".toList, "x".toList], ["b".toList, "x".toList]] 1 0 ∧
    rowVal [["a".toList, "x".toList], ["a".toList, "x".toList],
        ["b".toList, "x".toList], ["b".toList, "x".toList]] (1 - 0) 0 =
      rowVal [["a".toList, "x".toList], ["a".toList, "x".toList],
        ["b".toList, "x".toList], ["b".toList, "x".toList]] (0 - 0) 0 :=
  ⟨by decide,
    merge_level_column_parent_scoped
      [["a".toList, "x".toList], ["a".toList, "x".toList],
        ["b".toList, "x".toList], ["b".toList, "x".toList]] 1 0
      ⟨0, 1, "x".toList⟩ (by decide) 1 (by decide) (by decide) 0 (by decide)⟩

/-- C7: For every depth column, a merge range is emitted only when the
detected run spans at least 2 rows, and a row whose value at that column is
the empty string is never covered by any merge range at that column. -/
theorem merge_level_column_span_and_nonempty (rows : List (List (List Char)))
    (col start : Nat) (run : MergeRun)
    (hmem : run ∈ merge_level_column rows col start) :
    run.firstRow < run.lastRow ∧
    ∀ r, run.firstRow ≤ r → r ≤ run.lastRow →
      rowVal rows (r - start) col ≠ [] := by
  obtain ⟨i0, j, hi, hij, hfirst, hlast, hval, hne, hj⟩ :=
    mergeAux_mem rows col start rows.length 0 run hmem
  refine ⟨by omega, fun r hr1 hr2 => ?_⟩
  have hr0 : i0 ≤ r - start := by omega
  rcases Nat.eq_or_lt_of_le hr0 with heq | hlt
  · rw [← heq]; exact hne
  · have hrj : r - start < extendRun rows col i0 rows.length (i0 + 1) := by
      rw [← hj]; omega
    rw [(extendRun_inv rows col i0 rows.length (i0 + 1) (r - start)
      (by omega) hrj).1]
    exact hne

/-- Witness for C7: on a two-row grid sharing value `x` at column 0, the
emitted range spans two rows and covers only non-empty cells. -/
theorem merge_level_column_span_and_nonempty_witness :
    (0 : Nat) < 1 ∧
    ∀ r, 0 ≤ r → r ≤ 1 →
      rowVal [["x".toList], ["x".toList]] (r - 0) 0 ≠ [] := by
  have h := merge_level_column_span_and_nonempty
    [["x".toList], ["x".toList]] 0 0 ⟨0, 1, "x".toList⟩ (by decide)
  exact h

/-- Spec-side count of complete leading 4-character indentation units: a
continuation bar followed by three whitespace characters, or four plain
spaces, counted until the first unit matching neither pattern (or fewer
than four characters remaining). -/
def specUnitCount : List Char → Nat
  | c0 :: c1 :: c2 :: c3 :: rest =>
    if (c0 = '│' ∧ rustWhite c1 ∧ rustWhite c2 ∧ rustWhite c3) ∨
        (c0 = ' ' ∧ c1 = ' ' ∧ c2 = ' ' ∧ c3 = ' ') then
      specUnitCount rest + 1
    else 0
  | _ => 0

theorem countIndent_fst (l : List Char) : (countIndent l).1 = specUnitCount l := by
  induction l using countIndent.induct with
  | case1 c0 c1 c2 c3 rest h ih =>
    simp only [countIndent, specUnitCount, if_pos h, if_pos (Or.inl h), ih]
  | case2 c0 c1 c2 c3 rest h1 h2 ih =>
    simp only [countIndent, specUnitCount, if_neg h1, if_pos h2,
      if_pos (Or.inr h2), ih]
  | case3 c0 c1 c2 c3 rest h1 h2 =>
    have hor : ¬ ((c0 = '│' ∧ rustWhite c1 ∧ rustWhite c2 ∧ rustWhite c3) ∨
        (c0 = ' ' ∧ c1 = ' ' ∧ c2 = ' ' ∧ c3 = ' ')) := by
      intro h; rcases h with h | h
      · exact h1 h
      · exact h2 h
    simp only [countIndent, specUnitCount, if_neg h1, if_neg h2, if_neg hor]
  | case4 l h =>
    cases l with
    | nil => rfl
    | cons a l1 =>
      cases l1 with
      | nil => rfl
      | cons b l2 =>
        cases l2 with
        | nil => rfl
        | cons c l3 =>
          cases l3 with
          | nil => rfl
          | cons d l4 => exact absurd rfl (h a b c d l4)

/-- A character that can occur nowhere inside a matched indentation unit:
not a continuation bar and not whitespace (hence not a plain space). The
two connector glyphs are such characters. -/
def unitBlocker (c : Char) : Prop := c ≠ '│' ∧ rustWhite c = false

theorem unitBlocker_ne_space {c : Char} (h : unitBlocker c) : c ≠ ' ' := by
  intro he
  rw [he] at h
  exact absurd h.2 (by decide)

theorem specUnitCount_blocker0 {x : Char} (h : unitBlocker x) (r : List Char) :
    specUnitCount (x :: r) = 0 := by
  have hs := unitBlocker_ne_space h
  cases r with
  | nil => rfl
  | cons a r1 =>
    cases r1 with
    | nil => rfl
    | cons b r2 =>
      cases r2 with
      | nil => rfl
      | cons c r3 =>
        simp only [specUnitCount]
        rw [if_neg]
        intro hor
        rcases hor with h1 | h2
        · exact h.1 h1.1
        · exact hs h2.1

theorem specUnitCount_blocker1 {x : Char} (h : unitBlocker x) (a : Char)
    (r : List Char) : specUnitCount (a :: x :: r) = 0 := by
  have hs := unitBlocker_ne_space h
  cases r with
  | nil => rfl
  | cons b r1 =>
    cases r1 with
    | nil => rfl
    | cons c r2 =>
      simp only [specUnitCount]
      rw [if_neg]
      intro hor
      rcases hor with h1 | h2
      · exact absurd h1.2.1 (by simp [h.2])
      · exact hs h2.2.1

theorem specUnitCount_blocker2 {x : Char} (h : unitBlocker x) (a b : Char)
    (r : List Char) : specUnitCount (a :: b :: x :: r) = 0 := by
  have hs := unitBlocker_ne_space h
  cases r with
  | nil => rfl
  | cons c r1 =>
    simp only [specUnitCount]
    rw [if_neg]
    intro hor
    rcases hor with h1 | h2
    · exact absurd h1.2.2.1 (by simp [h.2])
    · exact hs h2.2.2.1

theorem specUnitCount_blocker3 {x : Char} (h : unitBlocker x) (a b c : Char)
    (r : List Char) : specUnitCount (a :: b :: c :: x :: r) = 0 := by
  have hs := unitBlocker_ne_space h
  simp only [specUnitCount]
  rw [if_neg]
  intro hor
  rcases hor with h1 | h2
  · exact absurd h1.2.2.2 (by simp [h.2])
  · exact hs h2.2.2.2

/-- The indentation-unit count is insensitive to which blocking character
(in particular, which connector glyph) terminates the indentation. -/
theorem specUnitCount_blocker_congr {x y : Char} (hx : unitBlocker x)
    (hy : unitBlocker y) :
    ∀ u r, specUnitCount (u ++ x :: r) = specUnitCount (u ++ y :: r) := by
  have main : ∀ n u r, u.length ≤ n →
      specUnitCount (u ++ x :: r) = specUnitCount (u ++ y :: r) := by
    intro n
    induction n with
    | zero =>
      intro u r hl
      have : u = [] := List.length_eq_zero.mp (Nat.le_zero.mp hl)
      subst this
      rw [List.nil_append, List.nil_append,
        specUnitCount_blocker0 hx, specUnitCount_blocker0 hy]
    | succ n ih =>
      intro u r hl
      match u with
      | [] =>
        rw [List.nil_append, List.nil_append,
          specUnitCount_blocker0 hx, specUnitCount_blocker0 hy]
      | [a] =>
        rw [List.cons_append, List.nil_append, List.cons_append,
          List.nil_append, specUnitCount_blocker1 hx,
          specUnitCount_blocker1 hy]
      | [a, b] =>
        simp only [List.cons_append, List.nil_append]
        rw [specUnitCount_blocker2 hx, specUnitCount_blocker2 hy]
      | [a, b, c] =>
        simp only [List.cons_append, List.nil_append]
        rw [specUnitCount_blocker3 hx, specUnitCount_blocker3 hy]
      | a :: b :: c :: d :: u4 =>
        simp only [List.cons_append, specUnitCount, List.append_eq]
        have hlen : u4.length ≤ n := by
          simp only [List.length_cons] at hl
          omega
        rw [ih u4 r hlen]
  exact fun u r => main u.length u r (Nat.le_refl _)

theorem finishName_level {lvl : Nat} {rest : List Char} {d : Nat}
    {n : List Char} (h : finishName lvl rest = some (d, n)) : d = lvl + 1 := by
  unfold finishName at h
  dsimp only at h
  split at h
  · exact absurd h (by simp)
  · split at h
    · exact absurd h (by simp)
    · simp only [Option.some.injEq, Prod.mk.injEq] at h
      exact h.1.symm

theorem parse_line_level_eq {line : List Char} {d : Nat} {n : List Char}
    (h : parse_line line = some (d, n)) :
    d = specUnitCount (remove_ansi_codes line) + 1 := by
  unfold parse_line at h
  dsimp only at h
  split at h
  · exact absurd h (by simp)
  · split at h
    · rw [finishName_level h, countIndent_fst]
    · rw [finishName_level h, countIndent_fst]
    · exact absurd h (by simp)

/-- C3: For every input line accepted as a valid entry, the returned depth
equals the number of complete 4-character indentation units (a continuation
bar followed by three whitespace characters, or four plain spaces) plus 1,
and a line with an interior-child connector and a line with a last-child
connector at equal indentation receive equal depth. -/
theorem parse_line_depth_spec :
    (∀ line d n, parse_line line = some (d, n) →
      d = specUnitCount (remove_ansi_codes line) + 1) ∧
    (∀ l1 l2 u r d1 n1 d2 n2,
      remove_ansi_codes l1 = u ++ '├' :: r →
      remove_ansi_codes l2 = u ++ '└' :: r →
      parse_line l1 = some (d1, n1) → parse_line l2 = some (d2, n2) →
      d1 = d2) := by
  refine ⟨fun line d n h => parse_line_level_eq h, ?_⟩
  intro l1 l2 u r d1 n1 d2 n2 h1 h2 hp1 hp2
  rw [parse_line_level_eq hp1, parse_line_level_eq hp2, h1, h2]
  rw [specUnitCount_blocker_congr (x := '├') (y := '└')
    (by constructor <;> decide) (by constructor <;> decide) u r]

/-- Witness for C3: the interior-child line `│   ├── a.rs` and the
last-child line `│   └── a.rs` are both accepted at depth 2 (one complete
indentation unit plus one), and the two depths agree. -/
theorem parse_line_depth_spec_witness :
    (2 : Nat) = specUnitCount (remove_ansi_codes "│   ├── a.rs".toList) + 1 ∧
    (2 : Nat) = (2 : Nat) :=
  ⟨parse_line_depth_spec.1 "│   ├── a.rs".toList 2 "a.rs".toList (by decide),
   parse_line_depth_spec.2 "│   ├── a.rs".toList "│   └── a.rs".toList
     "│   ".toList "── a.rs".toList 2 "a.rs".toList 2 "a.rs".toList
     (by decide) (by decide) (by decide) (by decide)⟩

theorem lastDotPos_isSome_of_contains {name : List Char}
    (h : name.contains '.' = true) : ∃ p, lastDotPos name = some p := by
  have hmem : '.' ∈ name.reverse := by
    simp only [List.mem_reverse]
    simpa using h
  rcases hfind : name.reverse.findIdx? (fun c => decide (c = '.')) with _ | k
  · rw [List.findIdx?_eq_none_iff] at hfind
    have := hfind '.' hmem
    simp at this
  · exact ⟨name.length - 1 - k, by simp [lastDotPos, hfind]⟩

/-- C5 counterexample: the name `a.b.` has an interior dot (position 1,
neither first nor last) and is not on the allow-list, yet `is_file`
classifies it as a directory, because the code tests the LAST dot
(`rfind`), which here is final. This refutes the claim as stated. -/
theorem is_file_claim_counterexample :
    (∃ i, 0 < i ∧ i + 1 < ("a.b.".toList).length ∧
      ("a.b.".toList).getD i ' ' = '.') ∧
    wellKnownFile "a.b.".toList = false ∧
    is_file "a.b.".toList = false :=
  ⟨⟨1, by decide, by decide, by decide⟩, by decide, by decide⟩

/-- C5 (amended): `is_file` is true iff the name contains a `.`, does not
start with `.`, and its LAST dot sits at a position that is neither 0 nor
the final character; for all other names (no dot, or dot-initial) it is
true iff the name is on the fixed allow-list of well-known extensionless
file names. -/
theorem is_file_characterization (name : List Char) :
    is_file name = true ↔
      ((name.contains '.' = true ∧ startsWithList ['.'] name = false ∧
        ∃ p, lastDotPos name = some p ∧ 0 < p ∧ p < name.length - 1) ∨
       ((name.contains '.' = false ∨ startsWithList ['.'] name = true) ∧
        wellKnownFile name = true)) := by
  unfold is_file
  by_cases hc : (name.contains '.' && !startsWithList ['.'] name) = true
  · rw [if_pos hc]
    have hc2 := Bool.and_eq_true_iff.mp hc
    have hcon := hc2.1
    have hsd : startsWithList ['.'] name = false := by
      simpa only [Bool.not_eq_true'] using hc2.2
    obtain ⟨p, hp⟩ := lastDotPos_isSome_of_contains hcon
    rw [hp]
    show (decide (p > 0) && decide (p < name.length - 1)) = true ↔ _
    constructor
    · intro hb
      have hb2 := Bool.and_eq_true_iff.mp hb
      exact Or.inl ⟨hcon, hsd, p, rfl,
        of_decide_eq_true hb2.1, of_decide_eq_true hb2.2⟩
    · rintro (⟨_, _, q, hq, hq1, hq2⟩ | ⟨hbad, _⟩)
      · obtain rfl : p = q := Option.some.inj hq
        rw [decide_eq_true hq1, decide_eq_true hq2]
        rfl
      · rcases hbad with hbad | hbad
        · rw [hcon] at hbad; exact absurd hbad (by simp)
        · rw [hsd] at hbad; exact absurd hbad (by simp)
  · rw [if_neg hc]
    have hor : name.contains '.' = false ∨ startsWithList ['.'] name = true := by
      by_cases h1 : name.contains '.' = true
      · by_cases h2 : startsWithList ['.'] name = true
        · exact Or.inr h2
        · simp only [Bool.not_eq_true] at h2
          exact absurd (by rw [h1, h2]; rfl) hc
      · simp only [Bool.not_eq_true] at h1
        exact Or.inl h1
    constructor
    · intro hw
      exact Or.inr ⟨hor, hw⟩
    · intro h
      rcases h with ⟨hcon, hsd, _⟩ | ⟨_, hw⟩
      · exact absurd (by rw [hcon, hsd]; rfl) hc
      · exact hw

/-- Witness for C5 (amended): `main.rs` is classified as a file — it
contains a dot, does not start with one, and its last dot (position 4 of
7) is interior. -/
theorem is_file_characterization_witness :
    is_file "main.rs".toList = true :=
  (is_file_characterization "main.rs".toList).mpr
    (Or.inl ⟨by decide, by decide, 4, by decide, by decide, by decide⟩)

theorem containsSub_head_mem {p : Char} {ps l : List Char}
    (h : containsSub (p :: ps) l = true) : p ∈ l := by
  induction l with
  | nil => simp [containsSub, startsWithList] at h
  | cons c cs ih =>
    simp only [containsSub, Bool.or_eq_true] at h
    rcases h with h | h
    · simp only [startsWithList, Bool.and_eq_true, beq_iff_eq] at h
      exact h.1 ▸ List.mem_cons_self c cs
    · exact List.mem_cons_of_mem c (ih h)

theorem trim_eq_nil_all_white {l : List Char} (h : trimChars l = []) :
    ∀ c ∈ l, rustWhite c = true := by
  unfold trimChars at h
  rw [List.reverse_eq_nil_iff, List.dropWhile_eq_nil_iff] at h
  intro c hc
  rcases List.mem_append.mp
      ((List.takeWhile_append_dropWhile (p := rustWhite) (l := l)) ▸ hc) with
    h1 | h1
  · exact List.mem_takeWhile_imp h1
  · exact h c (List.mem_reverse.mpr h1)

theorem trim_ne_nil {c : Char} {l : List Char} (hmem : c ∈ l)
    (hw : rustWhite c = false) : trimChars l ≠ [] := by
  intro h
  rw [trim_eq_nil_all_white h c hmem] at hw
  exact absurd hw (by simp)

theorem isStatsLine_not_blank {line : List Char}
    (h : isStatsLine line = true) : trimChars line ≠ [] := by
  have h1 := (Bool.and_eq_true_iff.mp h).1
  exact trim_ne_nil (containsSub_head_mem h1) (by decide)

theorem parseStep_stats {ih : Bool} {s : PState} {line : List Char}
    (h : isStatsLine line = true) :
    parseStep ih s line = { s with stats_line := some (trimChars line) } := by
  unfold parseStep
  rw [if_neg (isStatsLine_not_blank h), if_pos h]

theorem parseStep_not_stats_stats_line {ih : Bool} {s : PState}
    {line : List Char} (h : isStatsLine line = false) :
    (parseStep ih s line).stats_line = s.stats_line := by
  unfold parseStep
  split
  · rfl
  · split
    · rename_i hs; rw [h] at hs; exact absurd hs (by simp)
    · split
      · rfl
      · dsimp only
        split
        · split <;> rfl
        · rfl

/-- C10: For every input and both values of includeHidden, a line
containing both the substring `directories` and the substring `files` is
never emitted as a TreeItem, even if it also has valid indentation and
tree-connector syntax — the statistics check runs before line parsing, so
such a line can only change the captured summary phrase. -/
theorem stats_line_only_affects_summary (ih : Bool) (s : PState)
    (line : List Char)
    (h : (containsSub "directories".toList line &&
          containsSub "files".toList line) = true) :
    parseStep ih s line = { s with stats_line := some (trimChars line) } :=
  parseStep_stats h

/-- Witness for C10: the line `├── 1 directories, 2 files` has valid
connector syntax yet only updates the captured phrase, adding no item. -/
theorem stats_line_only_affects_summary_witness :
    parseStep false ⟨[], [], none, []⟩ "├── 1 directories, 2 files".toList =
      ⟨[], [], some (trimChars "├── 1 directories, 2 files".toList), []⟩ :=
  stats_line_only_affects_summary false ⟨[], [], none, []⟩
    "├── 1 directories, 2 files".toList (by decide)

theorem parseStep_malformed_items {ih : Bool} {s : PState} {line : List Char}
    (h : parse_line line = none) : (parseStep ih s line).items = s.items := by
  unfold parseStep
  split
  · rfl
  · split
    · rfl
    · rw [h]

/-- C9: For every input string and every value of includeHidden, parse
returns successfully (never an error): a line that does not match the
indentation+connector grammar, or whose name is empty after trimming,
produces no TreeItem and does not abort parsing. -/
theorem parse_total_and_skips_malformed :
    (∀ lines ih, ∃ items, parse lines ih = .ok items) ∧
    (∀ ih s line, parse_line line = none →
      (parseStep ih s line).items = s.items) :=
  ⟨fun lines ih => ⟨parseItems lines ih, rfl⟩,
   fun _ _ _ h => parseStep_malformed_items h⟩

/-- Witness for C9: parsing succeeds on a malformed input, and the
connector-only line `├── ` (name empty after trimming) adds no item. -/
theorem parse_total_and_skips_malformed_witness :
    (∃ items, parse ["junk".toList] false = .ok items) ∧
    (parseStep false ⟨[], [], none, []⟩ "├── ".toList).items = [] :=
  ⟨parse_total_and_skips_malformed.1 ["junk".toList] false,
   parse_total_and_skips_malformed.2 false ⟨[], [], none, []⟩
     "├── ".toList (by decide)⟩

/-- Which statistics phrase the parse loop ends up holding: the trimmed
text of the LAST statistics line of the input (each new one overwrites the
previous), or nothing when no statistics line occurs. -/
def capturedStats (lines : List (List Char)) : Option (List Char) :=
  match (lines.filter (fun l => isStatsLine l)).getLast? with
  | some l => some (trimChars l)
  | none => none

theorem foldl_stats_line (ih : Bool) :
    ∀ (lines : List (List Char)) (s : PState),
      (lines.foldl (parseStep ih) s).stats_line =
        match (lines.filter (fun l => isStatsLine l)).getLast? with
        | some l => some (trimChars l)
        | none => s.stats_line := by
  intro lines
  induction lines with
  | nil => intro s; rfl
  | cons line rest ihl =>
    intro s
    rw [List.foldl_cons, ihl (parseStep ih s line)]
    rcases hfilter : (rest.filter (fun l => isStatsLine l)).getLast? with _ | l
    · rw [List.getLast?_eq_none_iff] at hfilter
      by_cases hst : isStatsLine line = true
      · rw [List.filter_cons_of_pos hst, hfilter]
        simp only [List.getLast?_singleton]
        rw [parseStep_stats hst]
      · rw [List.filter_cons_of_neg (by simpa using hst), hfilter]
        simp only [List.getLast?_eq_none_iff.mpr rfl]
        exact parseStep_not_stats_stats_line (by simpa using hst)
    · have hne : rest.filter (fun l => isStatsLine l) ≠ [] := by
        intro hnil; rw [hnil] at hfilter; exact absurd hfilter (by simp)
      obtain ⟨b, bs, hbs⟩ := List.exists_cons_of_ne_nil hne
      by_cases hst : isStatsLine line = true
      · rw [List.filter_cons_of_pos hst, hbs, List.getLast?_cons_cons,
          ← hbs, hfilter]
      · rw [List.filter_cons_of_neg (by simpa using hst), hfilter]

theorem parseState_stats_line (lines : List (List Char)) (ih : Bool) :
    (parseState lines ih).stats_line = capturedStats lines := by
  unfold parseState capturedStats
  rw [foldl_stats_line ih lines]

/-- C4 counterexample: with two statistics lines in the input and
includeHidden=true, the appended summary item carries the SECOND phrase,
not the first one seen — the capture overwrites, refuting the claim. -/
theorem stats_first_captured_counterexample :
    isStatsLine "1 directories, 2 files".toList = true ∧
    isStatsLine "3 directories, 4 files".toList = true ∧
    parseItems ["1 directories, 2 files".toList,
        "3 directories, 4 files".toList] true =
      [mkSummary "3 directories, 4 files".toList] ∧
    mkSummary "3 directories, 4 files".toList ≠
      mkSummary "1 directories, 2 files".toList := by
  refine ⟨by decide, by decide, by decide, by decide⟩

/-- C4 (amended): For every input containing multiple statistics lines
(lines containing both a directory-count and a file-count phrase), parse
captures the LAST such line seen (each later one overwrites the earlier
capture), and when includeHidden=true and such a line was captured, that
captured phrase (not a recomputed one) is carried by the appended summary
item. -/
theorem stats_last_captured :
    (∀ lines ih, (parseState lines ih).stats_line = capturedStats lines) ∧
    (∀ lines t, capturedStats lines = some t →
      parseItems lines true = (parseState lines true).items ++ [mkSummary t]) := by
  refine ⟨parseState_stats_line, fun lines t h => ?_⟩
  unfold parseItems
  dsimp only
  rw [parseState_stats_line lines true, h]
  rfl

/-- Witness for C4 (amended): on the two-statistics-line input the captured
phrase is the last one and the summary item carries it. -/
theorem stats_last_captured_witness :
    (parseState ["1 directories, 2 files".toList,
        "3 directories, 4 files".toList] true).stats_line =
      capturedStats ["1 directories, 2 files".toList,
        "3 directories, 4 files".toList] ∧
    parseItems ["1 directories, 2 files".toList,
        "3 directories, 4 files".toList] true =
      (parseState ["1 directories, 2 files".toList,
        "3 directories, 4 files".toList] true).items ++
        [mkSummary "3 directories, 4 files".toList] :=
  ⟨stats_last_captured.1 ["1 directories, 2 files".toList,
      "3 directories, 4 files".toList] true,
   stats_last_captured.2 ["1 directories, 2 files".toList,
      "3 directories, 4 files".toList] "3 directories, 4 files".toList
     (by decide)⟩

/-- C6: For every parse with includeHidden=false, the summary phrase
carried by the appended summary item states directory and file counts
equal to the actual number of non-leaf and leaf items in the returned
(filtered) list (the appended summary record itself aside, i.e. counted
over all but the last element); with includeHidden=true the originally
captured statistics phrase is preferred when one was found, otherwise the
recomputed counts are used. -/
theorem parse_summary_counts :
    (∀ lines,
      (parseItems lines false).getLast? = some (mkSummary (fmtStats
        ((parseItems lines false).dropLast.countP (fun it => !it.isFile))
        ((parseItems lines false).dropLast.countP (fun it => it.isFile))))) ∧
    (∀ lines t, capturedStats lines = some t →
      (parseItems lines true).getLast? = some (mkSummary t)) ∧
    (∀ lines, capturedStats lines = none →
      (parseItems lines true).getLast? = some (mkSummary (fmtStats
        ((parseItems lines true).dropLast.countP (fun it => !it.isFile))
        ((parseItems lines true).dropLast.countP (fun it => it.isFile))))) := by
  refine ⟨fun lines => ?_, fun lines t h => ?_, fun lines h => ?_⟩
  · have he : parseItems lines false = (parseState lines false).items ++
        [mkSummary (fmtStats
          ((parseState lines false).items.countP (fun it => !it.isFile))
          ((parseState lines false).items.countP (fun it => it.isFile)))] := rfl
    rw [he, List.getLast?_concat, List.dropLast_concat]
  · have he : parseItems lines true = (parseState lines true).items ++
        [mkSummary ((parseState lines true).stats_line.getD (fmtStats
          ((parseState lines true).items.countP (fun it => !it.isFile))
          ((parseState lines true).items.countP (fun it => it.isFile))))] := rfl
    rw [he, List.getLast?_concat, parseState_stats_line, h]
    rfl
  · have he : parseItems lines true = (parseState lines true).items ++
        [mkSummary ((parseState lines true).stats_line.getD (fmtStats
          ((parseState lines true).items.countP (fun it => !it.isFile))
          ((parseState lines true).items.countP (fun it => it.isFile))))] := rfl
    rw [he, parseState_stats_line, h, List.getLast?_concat,
      List.dropLast_concat]
    rfl

/-- Witness for C6: the recomputed phrase of a two-entry input counts one
directory and one file; with a captured statistics line and
includeHidden=true the captured phrase is carried; with no statistics line
and includeHidden=true the recomputed phrase is carried. -/
theorem parse_summary_counts_witness :
    (parseItems ["├── src".toList, "│   └── main.rs".toList] false).getLast? =
      some (mkSummary (fmtStats
        ((parseItems ["├── src".toList, "│   └── main.rs".toList]
            false).dropLast.countP (fun it => !it.isFile))
        ((parseItems ["├── src".toList, "│   └── main.rs".toList]
            false).dropLast.countP (fun it => it.isFile)))) ∧
    (parseItems ["7 directories, 9 files".toList] true).getLast? =
      some (mkSummary "7 directories, 9 files".toList) ∧
    (parseItems ["├── src".toList] true).getLast? =
      some (mkSummary (fmtStats
        ((parseItems ["├── src".toList] true).dropLast.countP
          (fun it => !it.isFile))
        ((parseItems ["├── src".toList] true).dropLast.countP
          (fun it => it.isFile)))) :=
  ⟨parse_summary_counts.1 ["├── src".toList, "│   └── main.rs".toList],
   parse_summary_counts.2.1 ["7 directories, 9 files".toList]
     "7 directories, 9 files".toList (by decide),
   parse_summary_counts.2.2 ["├── src".toList] (by decide)⟩

/-- The path segments of a `full_path`: maximal runs between `/`s. -/
def splitOnSlash (l : List Char) : List (List Char) := l.splitOn '/'

theorem digitChar_isDigit {m : Nat} (h : m < 10) :
    (Nat.digitChar m).isDigit = true := by
  interval_cases m <;> decide

theorem toDigitsCore_isDigit :
    ∀ (fuel n : Nat) (ds : List Char), (∀ c ∈ ds, c.isDigit = true) →
      ∀ c ∈ Nat.toDigitsCore 10 fuel n ds, c.isDigit = true := by
  intro fuel
  induction fuel with
  | zero => intro n ds hds c hc; exact hds c hc
  | succ fuel ih =>
    intro n ds hds c hc
    unfold Nat.toDigitsCore at hc
    dsimp only at hc
    split at hc
    · rcases List.mem_cons.mp hc with h1 | h1
      · rw [h1]; exact digitChar_isDigit (Nat.mod_lt _ (by omega))
      · exact hds c h1
    · refine ih _ _ ?_ c hc
      intro x hx
      rcases List.mem_cons.mp hx with h1 | h1
      · rw [h1]; exact digitChar_isDigit (Nat.mod_lt _ (by omega))
      · exact hds x h1

theorem natRepr_isDigit (n : Nat) :
    ∀ c ∈ (Nat.repr n).toList, c.isDigit = true := by
  intro c hc
  exact toDigitsCore_isDigit (n + 1) n [] (by intro x hx; simp at hx) c hc

theorem slash_not_mem_natRepr (n : Nat) : '/' ∉ (Nat.repr n).toList := by
  intro h
  have := natRepr_isDigit n '/' h
  exact absurd this (by decide)

theorem slash_not_mem_fmtStats (d f : Nat) : '/' ∉ fmtStats d f := by
  intro h
  unfold fmtStats at h
  rcases List.mem_append.mp h with h1 | h1
  · rcases List.mem_append.mp h1 with h2 | h2
    · rcases List.mem_append.mp h2 with h3 | h3
      · exact slash_not_mem_natRepr d h3
      · exact absurd h3 (by decide)
    · exact slash_not_mem_natRepr f h2
  · exact absurd h1 (by decide)

theorem splitOnSlash_no_slash {l : List Char} (h : '/' ∉ l) :
    splitOnSlash l = [l] := by
  unfold splitOnSlash List.splitOn
  exact List.splitOnP_eq_single _ _ (by
    intro x hx
    simp only [beq_iff_eq]
    intro he
    exact h (he ▸ hx))

theorem joinSlash_concat :
    ∀ (xs : List (List Char)) (y : List Char), xs ≠ [] →
      joinSlash (xs ++ [y]) = joinSlash xs ++ '/' :: y := by
  intro xs
  induction xs with
  | nil => intro y h; exact absurd rfl h
  | cons x zs ih =>
    intro y _
    cases zs with
    | nil =>
      show joinSlash [x, y] = joinSlash [x] ++ '/' :: y
      unfold joinSlash
      rw [List.intersperse_cons_cons]
      simp [List.intersperse]
    | cons z zs2 =>
      simp only [List.cons_append]
      have h1 : joinSlash (x :: z :: (zs2 ++ [y])) =
          x ++ '/' :: joinSlash (z :: (zs2 ++ [y])) := by
        unfold joinSlash
        rw [List.intersperse_cons_cons, List.flatten_cons, List.flatten_cons]
        rfl
      have h2 : joinSlash (x :: z :: zs2) = x ++ '/' :: joinSlash (z :: zs2) := by
        unfold joinSlash
        rw [List.intersperse_cons_cons, List.flatten_cons, List.flatten_cons]
        rfl
      have h3 := ih y (by simp)
      simp only [List.cons_append] at h3
      rw [h1, h3, h2]
      simp

theorem splitOn_joinSlash {parts : List (List Char)} (hne : parts ≠ [])
    (hfree : ∀ p ∈ parts, '/' ∉ p) :
    splitOnSlash (joinSlash parts) = parts := by
  have : joinSlash parts = List.intercalate ['/'] parts := rfl
  rw [this]
  exact List.splitOn_intercalate parts '/' hfree hne

theorem countIndent_snd_subset (l : List Char) :
    ∀ x ∈ (countIndent l).2, x ∈ l := by
  induction l using countIndent.induct with
  | case1 c0 c1 c2 c3 rest h ih =>
    intro x hx
    simp only [countIndent, if_pos h] at hx
    exact List.mem_cons_of_mem _ (List.mem_cons_of_mem _
      (List.mem_cons_of_mem _ (List.mem_cons_of_mem _ (ih x hx))))
  | case2 c0 c1 c2 c3 rest h1 h2 ih =>
    intro x hx
    simp only [countIndent, if_neg h1, if_pos h2] at hx
    exact List.mem_cons_of_mem _ (List.mem_cons_of_mem _
      (List.mem_cons_of_mem _ (List.mem_cons_of_mem _ (ih x hx))))
  | case3 c0 c1 c2 c3 rest h1 h2 =>
    intro x hx
    simpa only [countIndent, if_neg h1, if_neg h2] using hx
  | case4 l h =>
    intro x hx
    cases l with
    | nil => exact hx
    | cons a l1 =>
      cases l1 with
      | nil => exact hx
      | cons b l2 =>
        cases l2 with
        | nil => exact hx
        | cons c l3 =>
          cases l3 with
          | nil => exact hx
          | cons d l4 => exact absurd rfl (h a b c d l4)

theorem parse_line_trim_ne {line : List Char} {p : Nat × List Char}
    (h : parse_line line = some p) : trimChars line ≠ [] := by
  intro htrim
  have hall := trim_eq_nil_all_white htrim
  have hesc : escChar ∉ line := by
    intro hm
    have := hall escChar hm
    exact absurd this (by decide)
  have hid : remove_ansi_codes line = line := remove_ansi_of_not_mem line hesc
  unfold parse_line at h
  dsimp only at h
  split at h
  · exact absurd h (by simp)
  · rw [hid] at h
    split at h
    · rename_i heq
      have hmem : '├' ∈ (countIndent line).2 := by rw [heq]; simp
      have := hall '├' (countIndent_snd_subset line _ hmem)
      exact absurd this (by decide)
    · rename_i heq
      have hmem : '└' ∈ (countIndent line).2 := by rw [heq]; simp
      have := hall '└' (countIndent_snd_subset line _ hmem)
      exact absurd this (by decide)
    · exact absurd h (by simp)

theorem parseStep_malformed {ih : Bool} {s : PState} {line : List Char}
    (hst : isStatsLine line = false) (hp : parse_line line = none) :
    parseStep ih s line = s := by
  unfold parseStep
  split
  · rfl
  · rw [if_neg (by simp [hst]), hp]

theorem parseStep_parsed {ih : Bool} {s : PState} {line : List Char}
    {lv : Nat} {n : List Char}
    (hp : parse_line line = some (lv, n)) (hst : isStatsLine line = false) :
    parseStep ih s line =
      (if !ih && (startsWithList ['.'] n ||
          !(s.hidden_levels.filter (fun h => decide (h < lv))).isEmpty) then
        if startsWithList ['.'] n then
          { s with hidden_levels :=
              s.hidden_levels.filter (fun h => decide (h < lv)) ++ [lv] }
        else
          { s with hidden_levels :=
              s.hidden_levels.filter (fun h => decide (h < lv)) }
      else
        { items := s.items ++ [⟨n, lv, is_file n,
            if (s.path_stack.take (lv - 1)).isEmpty then n
            else joinSlash (s.path_stack.take (lv - 1)) ++ '/' :: n⟩],
          path_stack := s.path_stack.take (lv - 1) ++ [n],
          stats_line := s.stats_line,
          hidden_levels :=
            s.hidden_levels.filter (fun h => decide (h < lv)) }) := by
  unfold parseStep
  rw [if_neg (parse_line_trim_ne hp), if_neg (by simp [hst]), hp]

/-- A parse state whose path stack holds only names that are not
dot-prefixed and contain no `/`, and whose accepted items all have
dot-free path segments. -/
def cleanState (s : PState) : Prop :=
  (∀ q ∈ s.path_stack, startsWithList ['.'] q = false ∧ '/' ∉ q) ∧
  (∀ it ∈ s.items, ∀ seg ∈ splitOnSlash it.full_path,
    startsWithList ['.'] seg = false)

theorem parseStep_clean {s : PState} {line : List Char}
    (hline : ∀ lv n, parse_line line = some (lv, n) → '/' ∉ n)
    (hs : cleanState s) : cleanState (parseStep false s line) := by
  by_cases hb : trimChars line = []
  · unfold parseStep; rw [if_pos hb]; exact hs
  by_cases hst : isStatsLine line = true
  · rw [parseStep_stats hst]; exact hs
  rcases hp : parse_line line with _ | ⟨lv, n⟩
  · rw [parseStep_malformed (by simpa using hst) hp]; exact hs
  · rw [parseStep_parsed hp (by simpa using hst)]
    split
    · split
      · exact hs
      · exact hs
    · rename_i hcond
      simp only [Bool.not_false, Bool.true_and, Bool.or_eq_true,
        Bool.not_eq_true', List.isEmpty_eq_true, not_or] at hcond
      have hdot : startsWithList ['.'] n = false := by simpa using hcond.1
      have hnsl : '/' ∉ n := hline lv n hp
      constructor
      · intro q hq
        rcases List.mem_append.mp hq with h1 | h1
        · exact hs.1 q (List.mem_of_mem_take h1)
        · rw [List.mem_singleton.mp h1]
          exact ⟨hdot, hnsl⟩
      · intro it hit
        rcases List.mem_append.mp hit with h1 | h1
        · exact hs.2 it h1
        · rw [List.mem_singleton.mp h1]
          dsimp only
          by_cases hemp : (s.path_stack.take (lv - 1)).isEmpty = true
          · rw [if_pos hemp, splitOnSlash_no_slash hnsl]
            intro seg hseg
            rw [List.mem_singleton.mp hseg]
            exact hdot
          · rw [if_neg hemp]
            have hne : s.path_stack.take (lv - 1) ≠ [] := by
              simpa [List.isEmpty_eq_true] using hemp
            rw [← joinSlash_concat _ n hne]
            rw [splitOn_joinSlash (by simp)
              (by
                intro q hq
                rcases List.mem_append.mp hq with h2 | h2
                · exact (hs.1 q (List.mem_of_mem_take h2)).2
                · rw [List.mem_singleton.mp h2]; exact hnsl)]
            intro seg hseg
            rcases List.mem_append.mp hseg with h2 | h2
            · exact (hs.1 seg (List.mem_of_mem_take h2)).1
            · rw [List.mem_singleton.mp h2]; exact hdot

theorem foldl_clean :
    ∀ (lines : List (List Char)) (s : PState),
      (∀ line ∈ lines, ∀ lv n, parse_line line = some (lv, n) → '/' ∉ n) →
      cleanState s → cleanState (lines.foldl (parseStep false) s) := by
  intro lines
  induction lines with
  | nil => intro s _ hs; exact hs
  | cons line rest ih =>
    intro s hlines hs
    rw [List.foldl_cons]
    exact ih (parseStep false s line)
      (fun l hl => hlines l (List.mem_cons_of_mem line hl))
      (parseStep_clean (hlines line (List.mem_cons_self line rest)) hs)

theorem parseStep_hidden_mono {s : PState} {line : List Char} {ld : Nat}
    (hmem : ld ∈ s.hidden_levels)
    (hlv : ∀ lv n, parse_line line = some (lv, n) → ld < lv) :
    ld ∈ (parseStep false s line).hidden_levels := by
  by_cases hb : trimChars line = []
  · unfold parseStep; rw [if_pos hb]; exact hmem
  by_cases hst : isStatsLine line = true
  · rw [parseStep_stats hst]; exact hmem
  rcases hp : parse_line line with _ | ⟨lv, n⟩
  · rw [parseStep_malformed (by simpa using hst) hp]; exact hmem
  · rw [parseStep_parsed hp (by simpa using hst)]
    have hf : ld ∈ s.hidden_levels.filter (fun h => decide (h < lv)) :=
      List.mem_filter.mpr ⟨hmem, by simp [hlv lv n hp]⟩
    split
    · split
      · exact List.mem_append.mpr (Or.inl hf)
      · exact hf
    · exact hf

theorem foldl_hidden_mono {ld : Nat} :
    ∀ (mid : List (List Char)) (s : PState), ld ∈ s.hidden_levels →
      (∀ line ∈ mid, ∀ lv n, parse_line line = some (lv, n) → ld < lv) →
      ld ∈ (mid.foldl (parseStep false) s).hidden_levels := by
  intro mid
  induction mid with
  | nil => intro s hmem _; exact hmem
  | cons line rest ih =>
    intro s hmem hmid
    rw [List.foldl_cons]
    exact ih (parseStep false s line)
      (parseStep_hidden_mono hmem
        (hmid line (List.mem_cons_self line rest)))
      (fun l hl => hmid l (List.mem_cons_of_mem line hl))

theorem parseStep_dot_records {s : PState} {d : List Char} {ld : Nat}
    {nd : List Char} (hp : parse_line d = some (ld, nd))
    (hst : isStatsLine d = false) (hdot : startsWithList ['.'] nd = true) :
    ld ∈ (parseStep false s d).hidden_levels := by
  rw [parseStep_parsed hp hst]
  rw [if_pos (by rw [hdot]; rfl), if_pos hdot]
  exact List.mem_append.mpr (Or.inr (List.mem_singleton.mpr rfl))

theorem append_singleton_ne {α : Type} (l : List α) (a : α) :
    l ++ [a] ≠ l := by
  intro h
  have := congrArg List.length h
  simp at this

theorem parseStep_items_iff {s : PState} {line : List Char} {lv : Nat}
    {n : List Char} (hp : parse_line line = some (lv, n))
    (hst : isStatsLine line = false) :
    (parseStep false s line).items = s.items ↔
      (startsWithList ['.'] n = true ∨ ∃ h ∈ s.hidden_levels, h < lv) := by
  rw [parseStep_parsed hp hst]
  by_cases hdot : startsWithList ['.'] n = true
  · rw [if_pos (by rw [hdot]; rfl), if_pos hdot]
    simp only [true_iff, iff_true]
    exact Or.inl hdot
  · have hdot2 : startsWithList ['.'] n = false := by
      simpa using hdot
    by_cases hfil : s.hidden_levels.filter (fun h => decide (h < lv)) = []
    · rw [if_neg (by simp [hdot2, hfil])]
      constructor
      · intro habs
        exact absurd habs (append_singleton_ne _ _)
      · intro hor
        rcases hor with h1 | ⟨h, hh, hlt⟩
        · exact absurd h1 (by simp [hdot2])
        · have : h ∈ s.hidden_levels.filter (fun q => decide (q < lv)) :=
            List.mem_filter.mpr ⟨hh, by simp [hlt]⟩
          rw [hfil] at this
          exact absurd this (by simp)
    · rw [if_pos (by
        simp only [Bool.not_false, Bool.true_and, Bool.or_eq_true]
        right
        simpa [List.isEmpty_eq_true] using hfil), if_neg hdot]
      simp only [true_iff]
      obtain ⟨h, hh⟩ := List.exists_mem_of_ne_nil _ hfil
      have hmf := List.mem_filter.mp hh
      exact Or.inr ⟨h, hmf.1, by simpa using hmf.2⟩

theorem statMark_append_not_dot (t : List Char) :
    startsWithList ['.'] (statMark ++ t) = false := rfl

theorem summary_segments (d f : Nat) :
    ∀ seg ∈ splitOnSlash (statMark ++ fmtStats d f),
      startsWithList ['.'] seg = false := by
  have hns : '/' ∉ statMark ++ fmtStats d f := by
    intro h
    rcases List.mem_append.mp h with h1 | h1
    · exact absurd h1 (by decide)
    · exact slash_not_mem_fmtStats d f h1
  rw [splitOnSlash_no_slash hns]
  intro seg hseg
  rw [List.mem_singleton.mp hseg]
  exact statMark_append_not_dot _

/-- C2 counterexample: the line `├── a/.b` parses (includeHidden=false) to
an item whose fullPath `a/.b` has the path segment `.b` starting with the
hidden marker — the name itself contains a `/`, which the claim as stated
does not exclude. -/
theorem parse_hidden_filtering_counterexample :
    ∃ it ∈ parseItems ["├── a/.b".toList] false,
      ∃ seg ∈ splitOnSlash it.full_path,
        startsWithList ['.'] seg = true := by decide

/-- C2 (amended): For every input parsed with includeHidden=false whose
parsed entry names contain no path separator `/`, no returned TreeItem has
a fullPath containing a path segment that starts with `.`; no
(non-statistics) entry that is a descendant by depth nesting in input
order of a skipped dot-prefixed (non-statistics) entry produces an item;
and a parsed non-statistics entry is suppressed (adds no item) iff its own
name starts with `.` or some recorded hidden ancestor depth strictly
shallower than its depth is still open. -/
theorem parse_hidden_filtering :
    (∀ lines,
      (∀ line ∈ lines, ∀ lv n, parse_line line = some (lv, n) → '/' ∉ n) →
      ∀ it ∈ parseItems lines false, ∀ seg ∈ splitOnSlash it.full_path,
        startsWithList ['.'] seg = false) ∧
    (∀ pre d mid e ld nd le ne, parse_line d = some (ld, nd) →
      isStatsLine d = false → startsWithList ['.'] nd = true →
      (∀ line ∈ mid, ∀ lv n, parse_line line = some (lv, n) → ld < lv) →
      parse_line e = some (le, ne) → ld < le →
      (parseStep false (parseState (pre ++ d :: mid) false) e).items =
        (parseState (pre ++ d :: mid) false).items) ∧
    (∀ s line lv n, parse_line line = some (lv, n) →
      isStatsLine line = false →
      ((parseStep false s line).items = s.items ↔
        (startsWithList ['.'] n = true ∨
          ∃ h ∈ s.hidden_levels, h < lv))) := by
  refine ⟨?_, ?_, fun s line lv n hp hst => parseStep_items_iff hp hst⟩
  · intro lines hlines it hit seg hseg
    have hclean : cleanState (parseState lines false) := by
      unfold parseState
      refine foldl_clean lines _ hlines
        ⟨fun q hq => absurd hq (List.not_mem_nil q),
         fun i hi => absurd hi (List.not_mem_nil i)⟩
    have he : parseItems lines false = (parseState lines false).items ++
        [mkSummary (fmtStats
          ((parseState lines false).items.countP (fun i => !i.isFile))
          ((parseState lines false).items.countP (fun i => i.isFile)))] := rfl
    rw [he] at hit
    rcases List.mem_append.mp hit with h1 | h1
    · exact hclean.2 it h1 seg hseg
    · rw [List.mem_singleton.mp h1] at hseg
      exact summary_segments _ _ seg hseg
  · intro pre d mid e ld nd le ne hpd hstd hdot hmid hpe hle
    have hdec : parseState (pre ++ d :: mid) false =
        mid.foldl (parseStep false)
          (parseStep false (parseState pre false) d) := by
      unfold parseState
      rw [List.foldl_append, List.foldl_cons]
    have h0 : ld ∈ (parseStep false (parseState pre false) d).hidden_levels :=
      parseStep_dot_records hpd hstd hdot
    have h1 : ld ∈ (parseState (pre ++ d :: mid) false).hidden_levels := by
      rw [hdec]
      exact foldl_hidden_mono mid _ h0 hmid
    by_cases hste : isStatsLine e = true
    · rw [parseStep_stats hste]
    · exact (parseStep_items_iff hpe (by simpa using hste)).mpr
        (Or.inr ⟨ld, h1, hle⟩)

/-- Witness for C2 (amended): a slash-free input yields only dot-free path
segments; a child of a skipped `.git` entry produces no item; and the
suppression test holds on a concrete state with one open hidden level. -/
theorem parse_hidden_filtering_witness :
    startsWithList ['.'] "src".toList = false ∧
    (parseStep false (parseState ([] ++ "├── .git".toList :: []) false)
        "│   └── config".toList).items =
      (parseState ([] ++ "├── .git".toList :: []) false).items ∧
    ((parseStep false ⟨[], [], none, [1]⟩ "│   └── x".toList).items =
        (⟨[], [], none, [1]⟩ : PState).items ↔
      (startsWithList ['.'] "x".toList = true ∨
        ∃ h ∈ (⟨[], [], none, [1]⟩ : PState).hidden_levels, h < 2)) :=
  ⟨parse_hidden_filtering.1 ["├── src".toList]
     (by
       intro line hl lv n hp
       rw [List.mem_singleton.mp hl] at hp
       rw [show parse_line "├── src".toList = some (1, "src".toList) from
         by decide] at hp
       simp only [Option.some.injEq, Prod.mk.injEq] at hp
       rw [← hp.2]
       decide)
     ⟨"src".toList, 1, false, "src".toList⟩ (by decide)
     "src".toList (by decide),
   parse_hidden_filtering.2.1 [] "├── .git".toList [] "│   └── config".toList
     1 ".git".toList 2 "config".toList (by decide) (by decide) (by decide)
     (fun line hl => absurd hl (List.not_mem_nil line)) (by decide)
     (by decide),
   parse_hidden_filtering.2.2 ⟨[], [], none, [1]⟩ "│   └── x".toList
     2 "x".toList (by decide) (by decide)⟩
